import Mathlib

/-!
Shallow embedding of the cache subsystem and operation-dispatch layer of the
math microservice (`app/services/math_service.py`, `app/models/request_model.py`).

Machine-level conventions of the embedding:
- Python `int` values are `Int`; database timestamps are `Nat` (seconds).
- Parameter dictionaries are association lists `List (String × Int)` in
  insertion order; dictionary keys are unique where a claim needs it.
- `json.dumps` / `json.loads` of integer values are embedded as an executable
  decimal codec (`intToChars` / `jsonLoadsInt`), `json.dumps` of a parameter
  dictionary as `jsonDumpsSortKeys` (with `sort_keys=True`) resp.
  `jsonDumpsPlain` (insertion order), matching the default separators.
- `hashlib.sha256(...).hexdigest()` is embedded as a full executable SHA-256
  over the UTF-8 bytes of the serialized string.
- The SQLAlchemy session is a key-indexed store `CacheState`; a raised and
  caught database exception is injected through an explicit `dbFail` flag.
-/

/-- Right rotation of a 32-bit word represented as a `Nat` below `2 ^ 32`. -/
def rotr32 (n x : Nat) : Nat := ((x >>> n) ||| (x <<< (32 - n))) % 2 ^ 32

/-- The 64 SHA-256 round constants (decimal values of the words of FIPS 180-4). -/
def sha256K : List Nat :=
  [1116352408, 1899447441, 3049323471, 3921009573, 961987163, 1508970993,
   2453635748, 2870763221, 3624381080, 310598401, 607225278, 1426881987,
   1925078388, 2162078206, 2614888103, 3248222580, 3835390401, 4022224774,
   264347078, 604807628, 770255983, 1249150122, 1555081692, 1996064986,
   2554220882, 2821834349, 2952996808, 3210313671, 3336571891, 3584528711,
   113926993, 338241895, 666307205, 773529912, 1294757372, 1396182291,
   1695183700, 1986661051, 2177026350, 2456956037, 2730485921, 2820302411,
   3259730800, 3345764771, 3516065817, 3600352804, 4094571909, 275423344,
   430227734, 506948616, 659060556, 883997877, 958139571, 1322822218,
   1537002063, 1747873779, 1955562222, 2024104815, 2227730452, 2361852424,
   2428436474, 2756734187, 3204031479, 3329325298]

/-- The SHA-256 initial hash state (decimal values). -/
def sha256H0 : List Nat :=
  [1779033703, 3144134277, 1013904242, 2773480762,
   1359893119, 2600822924, 528734635, 1541459225]

/-- Big-endian 8-byte encoding of a length in bits. -/
def be64 (n : Nat) : List Nat :=
  [(n >>> 56) % 256, (n >>> 48) % 256, (n >>> 40) % 256, (n >>> 32) % 256,
   (n >>> 24) % 256, (n >>> 16) % 256, (n >>> 8) % 256, n % 256]

/-- SHA-256 message padding to a multiple of 64 bytes. -/
def sha256Pad (msg : List Nat) : List Nat :=
  let len := msg.length
  let zeros := (119 - len % 64) % 64
  msg ++ [0x80] ++ List.replicate zeros 0 ++ be64 (8 * len)

/-- Group bytes into big-endian 32-bit words. -/
def bytesToWords : List Nat → List Nat
  | a :: b :: c :: d :: rest => (((a * 256 + b) * 256 + c) * 256 + d) :: bytesToWords rest
  | _ => []

/-- Split a padded word stream into 16-word blocks. -/
def wordBlocks : List Nat → List (List Nat)
  | w0 :: w1 :: w2 :: w3 :: w4 :: w5 :: w6 :: w7 ::
    w8 :: w9 :: w10 :: w11 :: w12 :: w13 :: w14 :: w15 :: rest =>
      [w0, w1, w2, w3, w4, w5, w6, w7, w8, w9, w10, w11, w12, w13, w14, w15] :: wordBlocks rest
  | _ => []

/-- Message-schedule extension; the word list is kept reversed (newest first). -/
def sha256Sched : Nat → List Nat → List Nat
  | 0, ws => ws
  | t + 1, ws =>
    let w2 := ws.getD 1 0
    let w7 := ws.getD 6 0
    let w15 := ws.getD 14 0
    let w16 := ws.getD 15 0
    let s0 := rotr32 7 w15 ^^^ rotr32 18 w15 ^^^ (w15 >>> 3)
    let s1 := rotr32 17 w2 ^^^ rotr32 19 w2 ^^^ (w2 >>> 10)
    sha256Sched t (((s1 + w7 + s0 + w16) % 2 ^ 32) :: ws)

/-- One SHA-256 compression round on the eight-word working state. -/
def sha256Round (s : List Nat) (kw : Nat × Nat) : List Nat :=
  let a := s.getD 0 0
  let b := s.getD 1 0
  let c := s.getD 2 0
  let d := s.getD 3 0
  let e := s.getD 4 0
  let f := s.getD 5 0
  let g := s.getD 6 0
  let h := s.getD 7 0
  let S1 := rotr32 6 e ^^^ rotr32 11 e ^^^ rotr32 25 e
  let ch := (e &&& f) ^^^ ((e ^^^ 0xFFFFFFFF) &&& g)
  let t1 := (h + S1 + ch + kw.1 + kw.2) % 2 ^ 32
  let S0 := rotr32 2 a ^^^ rotr32 13 a ^^^ rotr32 22 a
  let mj := (a &&& b) ^^^ (a &&& c) ^^^ (b &&& c)
  let t2 := (S0 + mj) % 2 ^ 32
  [(t1 + t2) % 2 ^ 32, a, b, c, (d + t1) % 2 ^ 32, e, f, g]

/-- Compress one 16-word block into the hash state. -/
def sha256Compress (H : List Nat) (block : List Nat) : List Nat :=
  let ws := (sha256Sched 48 block.reverse).reverse
  let s := (sha256K.zip ws).foldl sha256Round H
  (H.zip s).map (fun p => (p.1 + p.2) % 2 ^ 32)

/-- SHA-256 of a byte list, as the list of eight 32-bit hash words. -/
def sha256Words (msg : List Nat) : List Nat :=
  (wordBlocks (bytesToWords (sha256Pad msg))).foldl sha256Compress sha256H0

/-- Lowercase hex character for a nibble value. -/
def hexChar (d : Nat) : Char := Char.ofNat (if d < 10 then 48 + d else 87 + d)

/-- Eight lowercase hex characters of a 32-bit word. -/
def wordHex (w : Nat) : List Char :=
  [hexChar ((w >>> 28) % 16), hexChar ((w >>> 24) % 16), hexChar ((w >>> 20) % 16),
   hexChar ((w >>> 16) % 16), hexChar ((w >>> 12) % 16), hexChar ((w >>> 8) % 16),
   hexChar ((w >>> 4) % 16), hexChar (w % 16)]

/-- The 64-character lowercase hex digest, embedding `hashlib.sha256(..).hexdigest()`. -/
def sha256Hex (msg : List Nat) : List Char :=
  (sha256Words msg).foldr (fun w acc => wordHex w ++ acc) []

/-- Big-endian value of a word list, each word weighted by `(2 ^ 32) ^ position`. -/
def wordsVal : List Nat → Nat
  | [] => 0
  | w :: ws => w * (2 ^ 32) ^ ws.length + wordsVal ws

/-- SHA-256 digest of a byte list as a single natural number below `2 ^ 256`. -/
def sha256Val (msg : List Nat) : Nat := wordsVal (sha256Words msg)

/-- UTF-8 encoding of one character, embedding Python `str.encode()` per char. -/
def utf8Encode (c : Char) : List Nat :=
  let n := c.toNat
  if n < 0x80 then [n]
  else if n < 0x800 then [0xC0 ||| (n >>> 6), 0x80 ||| (n &&& 0x3F)]
  else if n < 0x10000 then
    [0xE0 ||| (n >>> 12), 0x80 ||| ((n >>> 6) &&& 0x3F), 0x80 ||| (n &&& 0x3F)]
  else
    [0xF0 ||| (n >>> 18), 0x80 ||| ((n >>> 12) &&& 0x3F), 0x80 ||| ((n >>> 6) &&& 0x3F),
     0x80 ||| (n &&& 0x3F)]

/-- UTF-8 bytes of a character list, embedding Python `str.encode()`. -/
def strBytes (s : List Char) : List Nat := s.foldr (fun c acc => utf8Encode c ++ acc) []

/-! ### Decimal codec for integer JSON values -/

/-- Decimal digit character for `d < 10`. -/
def digitChar (d : Nat) : Char := Char.ofNat (48 + d)

/-- Big-endian decimal digits of `n`; `fuel` dominates `n` to stay structural. -/
def natDigitsAux : Nat → Nat → List Char
  | 0, _ => []
  | fuel + 1, n =>
    if n < 10 then [digitChar n]
    else natDigitsAux fuel (n / 10) ++ [digitChar (n % 10)]

/-- Decimal representation of a natural number. -/
def natToChars (n : Nat) : List Char := natDigitsAux (n + 1) n

/-- Decimal representation of an integer, embedding `json.dumps` of an `int`. -/
def intToChars (v : Int) : List Char :=
  if v < 0 then '-' :: natToChars (-v).toNat else natToChars v.toNat

/-- Value of a decimal digit character, if it is one. -/
def digitVal (c : Char) : Option Nat :=
  if 48 ≤ c.toNat ∧ c.toNat ≤ 57 then some (c.toNat - 48) else none

/-- Left fold of decimal digits onto an accumulator; fails on a non-digit. -/
def parseDigits : List Char → Nat → Option Nat
  | [], acc => some acc
  | c :: cs, acc => (digitVal c).bind fun d => parseDigits cs (acc * 10 + d)

/-- Embedding of `json.loads` restricted to integer payloads. -/
def jsonLoadsInt (s : List Char) : Option Int :=
  match s with
  | [] => none
  | c :: cs =>
    if c = '-' then
      match cs with
      | [] => none
      | _ => (parseDigits cs 0).map (fun m => -(m : Int))
    else (parseDigits (c :: cs) 0).map (fun m => (m : Int))

/-! ### Canonical serialization of parameter dictionaries -/

/-- Parameter dictionaries: association lists in insertion order. -/
def Params : Type := List (String × Int)

/-- Lexicographic comparison of character lists by code point, the order Python
uses on `str` when `json.dumps(..., sort_keys=True)` sorts dictionary keys. -/
def clLe : List Char → List Char → Bool
  | [], _ => true
  | _ :: _, [] => false
  | a :: as, b :: bs =>
    if a.toNat < b.toNat then true
    else if b.toNat < a.toNat then false
    else clLe as bs

/-- Sort-key order on dictionary entries: compare the key strings. -/
def paramLe (a b : String × Int) : Prop := clLe a.1.data b.1.data = true

instance : DecidableRel paramLe := fun a b => Bool.decEq (clLe a.1.data b.1.data) true

/-- JSON rendering of an object key (keys here are plain identifiers without
characters that `json.dumps` would escape). -/
def jsonKey (k : String) : List Char := Char.ofNat 34 :: k.data ++ [Char.ofNat 34]

/-- One `"key": value` fragment, using the default `": "` separator. -/
def jsonEntryChars (kv : String × Int) : List Char :=
  jsonKey kv.1 ++ (':' :: ' ' :: intToChars kv.2)

/-- Comma-joined object entries, using the default `", "` separator. -/
def jsonEntriesChars : List (String × Int) → List Char
  | [] => []
  | [kv] => jsonEntryChars kv
  | kv :: rest => jsonEntryChars kv ++ (',' :: ' ' :: jsonEntriesChars rest)

/-- Embedding of `json.dumps(parameters, sort_keys=True)`. -/
def jsonDumpsSortKeys (ps : List (String × Int)) : List Char :=
  Char.ofNat 123 :: jsonEntriesChars (List.insertionSort paramLe ps) ++ [Char.ofNat 125]

/-- Embedding of `json.dumps(parameters)` in insertion order, used for the
human-readable `parameters` column. -/
def jsonDumpsPlain (ps : List (String × Int)) : List Char :=
  Char.ofNat 123 :: jsonEntriesChars ps ++ [Char.ofNat 125]

/-- The pre-hash key data `f"{operation}:{json.dumps(parameters, sort_keys=True)}"`. -/
def keyData (operation : String) (ps : List (String × Int)) : List Char :=
  operation.data ++ (':' :: jsonDumpsSortKeys ps)

/-- Embedding of `CacheManager._generate_cache_key`. -/
def generateCacheKey (operation : String) (ps : List (String × Int)) : String :=
  String.mk (sha256Hex (strBytes (keyData operation ps)))

/-! ### The built-in operations -/

namespace FactorialOperation

/-- The multiplication loop of `FactorialOperation.execute`: multiply the
running product by each `i`, raising once the product exceeds `10 ^ 300`. -/
def fact_loop : List Int → Int → Except String Int
  | [], acc => .ok acc
  | i :: rest, acc =>
    let acc' := acc * i
    if acc' > 10 ^ 300 then .error "Factorial result too large"
    else fact_loop rest acc'

/-- Elements of Python `range(2, n + 1)` as integers. -/
def rangeFromTwo (n : Int) : List Int :=
  (List.range' 2 (n - 1).toNat).map (fun (k : Nat) => (k : Int))

/-- Embedding of `FactorialOperation.execute`. -/
def execute (n : Int) : Except String Int :=
  if n = 0 ∨ n = 1 then .ok 1
  else fact_loop (rangeFromTwo n) 1

end FactorialOperation

namespace FibonacciOperation

/-- The fresh memo table `{0: 0, 1: 1}` built in `__init__`. -/
def initMemo : List (Int × Int) := [(0, 0), (1, 1)]

/-- The iteration loop of `_fibonacci_memo` over `range(2, n + 1)`, threading
the pair `(a, b)` and the memo table. -/
def fib_loop : List Int → Int × Int → List (Int × Int) → (Int × Int) × List (Int × Int)
  | [], ab, memo => (ab, memo)
  | i :: rest, (a, b), memo =>
    match memo.lookup i with
    | none => fib_loop rest (b, a + b) ((i, a + b) :: memo)
    | some v => fib_loop rest ((memo.lookup (i - 1)).getD 0, v) memo

/-- Embedding of `_fibonacci_memo`: memo lookup, the `n < 2` early return, the
iterative loop, and the final `self._memo[n]` read (`getD 0` stands for a
dictionary read that never fails on states this code reaches). -/
def fibonacci_memo (memo : List (Int × Int)) (n : Int) : Int × List (Int × Int) :=
  match memo.lookup n with
  | some v => (v, memo)
  | none =>
    if n < 2 then (n, memo)
    else
      let r := fib_loop (FactorialOperation.rangeFromTwo n) (0, 1) memo
      ((r.2.lookup n).getD 0, r.2)

/-- Embedding of `FibonacciOperation.execute` on a fresh instance. -/
def execute (n : Int) : Int := (fibonacci_memo initMemo n).1

end FibonacciOperation

/-! ### The cache store and the dispatcher -/

/-- Embedding of the `cache_entries` row (`CacheEntry` in `request_model.py`). -/
structure CacheEntry where
  operation : String
  parameters : List Char
  cache_key : String
  result : List Char
  created_at : Nat
  expires_at : Option Nat
  hit_count : Nat
deriving DecidableEq

/-- The persistent store, indexed by the unique `cache_key` column. -/
def CacheState : Type := String → Option CacheEntry

/-- Point update of the store at one key. -/
def storePut (s : CacheState) (k : String) (e : CacheEntry) : CacheState :=
  fun k' => if k' = k then some e else s k'

namespace CacheManager

/-- The constructor default `default_ttl_hours = 24`. -/
def default_ttl_hours : Nat := 24

/-- Embedding of `CacheManager.get`.  The SQL filter
`CacheEntry.expires_at > datetime.utcnow()` follows SQL three-valued logic: a
row whose `expires_at` is NULL is not selected.  On a selected row the hit
count is incremented and committed before `json.loads` runs, so a row whose
`result` does not decode still commits the increment and yields `None`
through the `except` clause.  `dbFail` injects a store exception during the
query, which the `except` clause converts into `None` with no state change. -/
def get (dbFail : Bool) (now : Nat) (db : CacheState) (operation : String)
    (parameters : List (String × Int)) : Option Int × CacheState :=
  let cacheKey := generateCacheKey operation parameters
  if dbFail then (none, db)
  else
    match db cacheKey with
    | none => (none, db)
    | some e =>
      match e.expires_at with
      | none => (none, db)
      | some t =>
        if now < t then
          let e' := { e with hit_count := e.hit_count + 1 }
          let db' := storePut db cacheKey e'
          match jsonLoadsInt e.result with
          | some v => (some v, db')
          | none => (none, db')
        else (none, db)

/-- The Python expression `ttl_hours or self.default_ttl_hours`: fall back to
the default on `None` and on the falsy `0`. -/
def resolve_ttl (ttl_hours : Option Nat) : Nat :=
  match ttl_hours with
  | some t => if t = 0 then default_ttl_hours else t
  | none => default_ttl_hours

/-- Embedding of `CacheManager.set`: upsert at the computed key.  An existing
row keeps its `hit_count` and `created_at` and has `result`, `expires_at` and
`parameters` overwritten; a new row starts with the column default
`hit_count = 0`.  `dbFail` injects a store exception, which the `except`
clause logs and rolls back, leaving the store unchanged. -/
def set (dbFail : Bool) (now : Nat) (db : CacheState) (operation : String)
    (parameters : List (String × Int)) (result : Int) (ttl_hours : Option Nat) : CacheState :=
  let cacheKey := generateCacheKey operation parameters
  let ttl := resolve_ttl ttl_hours
  let expiresAt := now + ttl * 3600
  if dbFail then db
  else
    match db cacheKey with
    | some e =>
      storePut db cacheKey
        { e with result := intToChars result, expires_at := some expiresAt,
                 parameters := jsonDumpsPlain parameters }
    | none =>
      storePut db cacheKey
        { operation := operation, parameters := jsonDumpsPlain parameters,
          cache_key := cacheKey, result := intToChars result,
          created_at := now, expires_at := some expiresAt, hit_count := 0 }

end CacheManager

/-- The registry `self.operations`: a mapping from operation name to the
operation's compute function on keyword parameters. -/
def OperationTable : Type := String → Option (List (String × Int) → Except String Int)

namespace MathService

/-- Embedding of `MathService.execute_operation`.  `now` is the wall clock
used for expiry comparisons, `duration` the elapsed wall time measured around
the compute call.  An unknown name raises before any cache access; a cache
hit returns the decoded result with elapsed time `0` and `cache_hit = true`;
on a miss the operation runs, a successful result is written back through
`CacheManager.set` (best effort), and a compute failure is re-raised as
`Operation failed: ...` with no cache write. -/
def execute_operation (ops : OperationTable) (getFail setFail : Bool)
    (now duration : Nat) (db : CacheState) (operation_name : String)
    (parameters : List (String × Int)) (use_cache : Bool) :
    Except String (Int × Nat × Bool) × CacheState :=
  match ops operation_name with
  | none => (.error ("Unsupported operation: " ++ operation_name), db)
  | some f =>
    let gr := if use_cache then CacheManager.get getFail now db operation_name parameters
              else (none, db)
    match gr.1 with
    | some v => (.ok (v, 0, true), gr.2)
    | none =>
      match f parameters with
      | .ok r =>
        (.ok (r, duration, false),
         if use_cache then CacheManager.set setFail now gr.2 operation_name parameters r none
         else gr.2)
      | .error e => (.error ("Operation failed: " ++ e), gr.2)

end MathService

/-- A service-level wrapper binding the keyword dictionary `{"n": v}` to the
fibonacci operation, as `operation.execute(**parameters)` does. -/
def fibonacciImpl (ps : List (String × Int)) : Except String Int :=
  match ps with
  | [("n", v)] => .ok (FibonacciOperation.execute v)
  | _ => .error "invalid arguments"

/-- A service-level wrapper binding the keyword dictionary `{"n": v}` to the
factorial operation, as `operation.execute(**parameters)` does. -/
def factorialImpl (ps : List (String × Int)) : Except String Int :=
  match ps with
  | [("n", v)] => FactorialOperation.execute v
  | _ => .error "invalid arguments"

/-- A concrete operation table holding the two integer-valued built-ins, used
to instantiate the dispatcher theorems (the power operation's float semantics
lie outside this integer-valued embedding and no claim computes with it). -/
def sampleTable : OperationTable :=
  fun name =>
    if name = "fibonacci" then some fibonacciImpl
    else if name = "factorial" then some factorialImpl
    else none

/-- The store with no rows. -/
def emptyCache : CacheState := fun _ => none

/-- One cache-store interaction, for stating sequences of operations. -/
inductive CacheOp where
  | get (operation : String) (parameters : List (String × Int)) (now : Nat) (dbFail : Bool)
  | put (operation : String) (parameters : List (String × Int)) (result : Int)
        (ttl_hours : Option Nat) (now : Nat) (dbFail : Bool)

/-- State effect of one cache-store interaction. -/
def applyCacheOp (db : CacheState) : CacheOp → CacheState
  | .get operation parameters now dbFail => (CacheManager.get dbFail now db operation parameters).2
  | .put operation parameters result ttl_hours now dbFail =>
      CacheManager.set dbFail now db operation parameters result ttl_hours

/-- State effect of a sequence of cache-store interactions. -/
def applyCacheOps (ops : List CacheOp) (db : CacheState) : CacheState :=
  ops.foldl applyCacheOp db

/-- Pure two-accumulator Fibonacci step iteration, the mathematical content of
the loop in `_fibonacci_memo`. -/
def fibIter : Nat → Int × Int → Int × Int
  | 0, ab => ab
  | c + 1, (a, b) => fibIter c (b, a + b)

/-- Sort-key order strengthened with key distinctness; antisymmetric, which
the plain `paramLe` on pairs is not. -/
def paramLtKey (a b : String × Int) : Prop := paramLe a b ∧ a.1 ≠ b.1

/-! ### Lemmas: decimal codec -/

theorem digitChar_toNat (d : Nat) (h : d < 10) : (digitChar d).toNat = 48 + d := by
  interval_cases d <;> decide

theorem digitVal_digitChar (d : Nat) (h : d < 10) : digitVal (digitChar d) = some d := by
  interval_cases d <;> decide

theorem natDigitsAux_head (fuel : Nat) :
    ∀ n, n < fuel → ∃ c cs, natDigitsAux fuel n = c :: cs ∧ 48 ≤ c.toNat ∧ c.toNat ≤ 57 := by
  induction fuel with
  | zero => intro n h; omega
  | succ fuel ih =>
    intro n h
    by_cases h10 : n < 10
    · exact ⟨digitChar n, [], by simp [natDigitsAux, h10], by rw [digitChar_toNat n h10]; omega,
        by rw [digitChar_toNat n h10]; omega⟩
    · obtain ⟨c, cs, hcs, hlo, hhi⟩ := ih (n / 10) (by omega)
      exact ⟨c, cs ++ [digitChar (n % 10)], by simp [natDigitsAux, h10, hcs], hlo, hhi⟩

theorem parseDigits_append (xs : List Char) :
    ∀ ys acc, parseDigits (xs ++ ys) acc = (parseDigits xs acc).bind fun a => parseDigits ys a := by
  induction xs with
  | nil => intro ys acc; simp [parseDigits]
  | cons c cs ih =>
    intro ys acc
    simp only [List.cons_append, parseDigits]
    cases digitVal c with
    | none => simp
    | some d => simp [ih]

theorem parseDigits_natDigitsAux (fuel : Nat) :
    ∀ n acc, n < fuel →
      parseDigits (natDigitsAux fuel n) acc =
        some (acc * 10 ^ (natDigitsAux fuel n).length + n) := by
  induction fuel with
  | zero => intro n acc h; omega
  | succ fuel ih =>
    intro n acc h
    by_cases h10 : n < 10
    · simp [natDigitsAux, h10, parseDigits, digitVal_digitChar n h10]
    · have hdiv : n / 10 < fuel := by omega
      simp only [natDigitsAux, if_neg h10, parseDigits_append, ih (n / 10) acc hdiv,
        Option.bind_some, parseDigits, digitVal_digitChar (n % 10) (by omega),
        Option.bind_eq_bind, List.length_append, List.length_cons, List.length_nil]
      have : (acc * 10 ^ (natDigitsAux fuel (n / 10)).length + n / 10) * 10 + n % 10 =
          acc * 10 ^ ((natDigitsAux fuel (n / 10)).length + 1) + n := by
        rw [pow_succ]; ring_nf; omega
      simp [this]

theorem jsonLoadsInt_intToChars (v : Int) : jsonLoadsInt (intToChars v) = some v := by
  by_cases hv : v < 0
  · obtain ⟨c, cs, hcs, hlo, hhi⟩ := natDigitsAux_head ((-v).toNat + 1) (-v).toNat (by omega)
    have hparse := parseDigits_natDigitsAux ((-v).toNat + 1) (-v).toNat 0 (by omega)
    simp only [intToChars, if_pos hv, natToChars, hcs] at hparse ⊢
    simp only [zero_mul, zero_add] at hparse
    simp [jsonLoadsInt, hparse]
    omega
  · obtain ⟨c, cs, hcs, hlo, hhi⟩ := natDigitsAux_head (v.toNat + 1) v.toNat (by omega)
    have hparse := parseDigits_natDigitsAux (v.toNat + 1) v.toNat 0 (by omega)
    have hne : ¬ c = '-' := by
      intro hc; subst hc; exact absurd hlo (by decide)
    simp only [intToChars, if_neg hv, natToChars, hcs] at hparse ⊢
    simp only [zero_mul, zero_add] at hparse
    have hval : ((v.toNat : Nat) : Int) = v := by omega
    simp [jsonLoadsInt, if_neg hne, hparse, hval]

/-! ### Lemmas: the sort-key order -/

theorem clLe_total : ∀ as bs, clLe as bs = true ∨ clLe bs as = true := by
  intro as
  induction as with
  | nil => intro bs; left; rfl
  | cons a as ih =>
    intro bs
    cases bs with
    | nil => right; rfl
    | cons b bs =>
      rcases Nat.lt_trichotomy a.toNat b.toNat with h | h | h
      · left; simp [clLe, h]
      · have h1 : ¬ a.toNat < b.toNat := by omega
        have h2 : ¬ b.toNat < a.toNat := by omega
        simpa [clLe, h1, h2] using ih bs
      · right; simp [clLe, h]

theorem clLe_trans : ∀ as bs cs, clLe as bs = true → clLe bs cs = true → clLe as cs = true := by
  intro as
  induction as with
  | nil => intro bs cs _ _; rfl
  | cons a as ih =>
    intro bs cs hab hbc
    cases bs with
    | nil => simp [clLe] at hab
    | cons b bs =>
      cases cs with
      | nil => simp [clLe] at hbc
      | cons c cs =>
        simp only [clLe] at hab hbc ⊢
        split_ifs at hab hbc ⊢ with h1 h2 h3 h4 h5 h6 <;> try rfl
        all_goals try omega
        all_goals try exact ih bs cs hab hbc
        all_goals simp_all

theorem clLe_antisymm : ∀ as bs, clLe as bs = true → clLe bs as = true → as = bs := by
  intro as
  induction as with
  | nil =>
    intro bs _ hba
    cases bs with
    | nil => rfl
    | cons b bs => simp [clLe] at hba
  | cons a as ih =>
    intro bs hab hba
    cases bs with
    | nil => simp [clLe] at hab
    | cons b bs =>
      simp only [clLe] at hab hba
      split_ifs at hab hba with h1 h2 h3 h4 <;> try omega
      all_goals try simp_all
      have heq : a = b := by
        have hn : a.toNat = b.toNat := by omega
        simpa [Char.ofNat_toNat] using congrArg Char.ofNat hn
      exact ⟨heq, ih bs hab hba⟩

instance : IsTotal (String × Int) paramLe :=
  ⟨fun a b => by
    rcases clLe_total a.1.data b.1.data with h | h
    · exact Or.inl h
    · exact Or.inr h⟩

instance : IsTrans (String × Int) paramLe :=
  ⟨fun a b c hab hbc => clLe_trans a.1.data b.1.data c.1.data hab hbc⟩

instance : IsAntisymm (String × Int) paramLtKey :=
  ⟨fun a b hab hba =>
    absurd (String.ext (clLe_antisymm a.1.data b.1.data hab.1 hba.1)) hab.2⟩

theorem sorted_paramLtKey {l : List (String × Int)} (hs : List.Sorted paramLe l)
    (hnd : (l.map Prod.fst).Nodup) : List.Sorted paramLtKey l := by
  have hne : List.Pairwise (fun a b : String × Int => a.1 ≠ b.1) l := by
    rw [List.Nodup, List.pairwise_map] at hnd
    exact hnd
  exact hs.and hne

theorem insertionSort_eq_of_perm (ps₁ ps₂ : List (String × Int))
    (hperm : ps₁.Perm ps₂) (hnd : (ps₁.map Prod.fst).Nodup) :
    List.insertionSort paramLe ps₁ = List.insertionSort paramLe ps₂ := by
  have hp₁ := List.perm_insertionSort paramLe ps₁
  have hp₂ := List.perm_insertionSort paramLe ps₂
  have hnd₁ : ((List.insertionSort paramLe ps₁).map Prod.fst).Nodup :=
    ((hp₁.map Prod.fst).symm).nodup hnd
  have hnd₂ : ((List.insertionSort paramLe ps₂).map Prod.fst).Nodup :=
    ((hp₂.map Prod.fst).symm).nodup ((hperm.map Prod.fst).nodup hnd)
  exact List.eq_of_perm_of_sorted (hp₁.trans (hperm.trans hp₂.symm))
    (sorted_paramLtKey (List.sorted_insertionSort paramLe ps₁) hnd₁)
    (sorted_paramLtKey (List.sorted_insertionSort paramLe ps₂) hnd₂)

theorem generateCacheKey_perm (op : String) (ps₁ ps₂ : List (String × Int))
    (hperm : ps₁.Perm ps₂) (hnd : (ps₁.map Prod.fst).Nodup) :
    generateCacheKey op ps₁ = generateCacheKey op ps₂ := by
  unfold generateCacheKey keyData jsonDumpsSortKeys
  rw [insertionSort_eq_of_perm ps₁ ps₂ hperm hnd]

/-! ### Lemmas: the digest is 8 bounded words, and determines the hex key -/

theorem sha256Round_length (s : List Nat) (kw : Nat × Nat) : (sha256Round s kw).length = 8 := rfl

theorem foldl_sha256Round_length (l : List (Nat × Nat)) :
    ∀ s : List Nat, s.length = 8 → (l.foldl sha256Round s).length = 8 := by
  induction l with
  | nil => intro s h; exact h
  | cons kw l ih => intro s _; exact ih (sha256Round s kw) (sha256Round_length s kw)

theorem sha256Compress_length (H b : List Nat) (h : H.length = 8) :
    (sha256Compress H b).length = 8 := by
  unfold sha256Compress
  rw [List.length_map, List.length_zip, foldl_sha256Round_length _ H h, h]
  decide

theorem sha256Compress_bound (H b : List Nat) :
    ∀ w ∈ sha256Compress H b, w < 2 ^ 32 := by
  intro w hw
  unfold sha256Compress at hw
  obtain ⟨p, _, hp⟩ := List.mem_map.mp hw
  rw [← hp]
  exact Nat.mod_lt _ (by norm_num)

theorem foldl_sha256Compress_inv (bs : List (List Nat)) :
    ∀ H : List Nat, H.length = 8 → (∀ w ∈ H, w < 2 ^ 32) →
      (bs.foldl sha256Compress H).length = 8 ∧ ∀ w ∈ bs.foldl sha256Compress H, w < 2 ^ 32 := by
  induction bs with
  | nil => intro H h1 h2; exact ⟨h1, h2⟩
  | cons b bs ih =>
    intro H h1 _
    exact ih (sha256Compress H b) (sha256Compress_length H b h1) (sha256Compress_bound H b)

theorem sha256Words_inv (msg : List Nat) :
    (sha256Words msg).length = 8 ∧ ∀ w ∈ sha256Words msg, w < 2 ^ 32 := by
  unfold sha256Words
  exact foldl_sha256Compress_inv _ sha256H0 (by decide) (by decide)

theorem wordsVal_lt (l : List Nat) (h : ∀ w ∈ l, w < 2 ^ 32) :
    wordsVal l < (2 ^ 32) ^ l.length := by
  induction l with
  | nil => simp [wordsVal]
  | cons w ws ih =>
    have hw : w < 2 ^ 32 := h w (List.mem_cons_self w ws)
    have hws : wordsVal ws < (2 ^ 32) ^ ws.length := ih fun x hx => h x (List.mem_cons_of_mem _ hx)
    calc w * (2 ^ 32) ^ ws.length + wordsVal ws
        < w * (2 ^ 32) ^ ws.length + (2 ^ 32) ^ ws.length := by omega
      _ = (w + 1) * (2 ^ 32) ^ ws.length := by ring
      _ ≤ 2 ^ 32 * (2 ^ 32) ^ ws.length := by
          exact Nat.mul_le_mul_right _ (by omega)
      _ = (2 ^ 32) ^ (ws.length + 1) := by ring

theorem wordsVal_inj (l₁ : List Nat) :
    ∀ l₂ : List Nat, l₁.length = l₂.length → (∀ w ∈ l₁, w < 2 ^ 32) →
      (∀ w ∈ l₂, w < 2 ^ 32) → wordsVal l₁ = wordsVal l₂ → l₁ = l₂ := by
  induction l₁ with
  | nil =>
    intro l₂ hlen _ _ _
    cases l₂ with
    | nil => rfl
    | cons b bs => simp at hlen
  | cons a as ih =>
    intro l₂ hlen h₁ h₂ hval
    cases l₂ with
    | nil => simp at hlen
    | cons b bs =>
      have hlen' : as.length = bs.length := by simpa using hlen
      have hva : wordsVal as < (2 ^ 32) ^ as.length :=
        wordsVal_lt as fun x hx => h₁ x (List.mem_cons_of_mem _ hx)
      have hvb : wordsVal bs < (2 ^ 32) ^ as.length := by
        rw [hlen']
        exact wordsVal_lt bs fun x hx => h₂ x (List.mem_cons_of_mem _ hx)
      have hM : 0 < (2 ^ 32) ^ as.length := Nat.pos_pow_of_pos _ (by norm_num)
      simp only [wordsVal, ← hlen'] at hval
      rw [mul_comm a _, mul_comm b _] at hval
      have ha : ((2 ^ 32) ^ as.length * a + wordsVal as) / (2 ^ 32) ^ as.length = a := by
        rw [Nat.mul_add_div hM, Nat.div_eq_of_lt hva, Nat.add_zero]
      have hb : ((2 ^ 32) ^ as.length * b + wordsVal bs) / (2 ^ 32) ^ as.length = b := by
        rw [Nat.mul_add_div hM, Nat.div_eq_of_lt hvb, Nat.add_zero]
      have hab : a = b := by
        calc a = ((2 ^ 32) ^ as.length * a + wordsVal as) / (2 ^ 32) ^ as.length := ha.symm
          _ = ((2 ^ 32) ^ as.length * b + wordsVal bs) / (2 ^ 32) ^ as.length := by rw [hval]
          _ = b := hb
      subst hab
      have : wordsVal as = wordsVal bs := by omega
      rw [ih bs hlen' (fun x hx => h₁ x (List.mem_cons_of_mem _ hx))
        (fun x hx => h₂ x (List.mem_cons_of_mem _ hx)) this]

theorem sha256Words_eq_of_val {m₁ m₂ : List Nat} (h : sha256Val m₁ = sha256Val m₂) :
    sha256Words m₁ = sha256Words m₂ := by
  obtain ⟨hl₁, hb₁⟩ := sha256Words_inv m₁
  obtain ⟨hl₂, hb₂⟩ := sha256Words_inv m₂
  exact wordsVal_inj _ _ (by rw [hl₁, hl₂]) hb₁ hb₂ h

theorem sha256Val_lt (msg : List Nat) : sha256Val msg < 2 ^ 256 := by
  obtain ⟨hl, hb⟩ := sha256Words_inv msg
  have := wordsVal_lt (sha256Words msg) hb
  rw [hl] at this
  norm_num at this ⊢
  exact this

theorem generateCacheKey_eq_of_val {op₁ op₂ : String} {ps₁ ps₂ : List (String × Int)}
    (h : sha256Val (strBytes (keyData op₁ ps₁)) = sha256Val (strBytes (keyData op₂ ps₂))) :
    generateCacheKey op₁ ps₁ = generateCacheKey op₂ ps₂ := by
  unfold generateCacheKey sha256Hex
  rw [sha256Words_eq_of_val h]

deriving instance DecidableEq for Except

/-! ### Lemmas: factorial -/

theorem fact_loop_append (xs : List Int) :
    ∀ (ys : List Int) (acc : Int),
      FactorialOperation.fact_loop (xs ++ ys) acc =
        (FactorialOperation.fact_loop xs acc).bind
          (fun a => FactorialOperation.fact_loop ys a) := by
  induction xs with
  | nil => intro ys acc; rfl
  | cons i xs ih =>
    intro ys acc
    simp only [List.cons_append, FactorialOperation.fact_loop]
    by_cases h : acc * i > 10 ^ 300
    · simp [h, Except.bind]
    · simp [h, ih]

set_option maxRecDepth 4000 in
theorem factorial_ge_167 (n : Int) (h : 167 ≤ n) :
    FactorialOperation.execute n = .error "Factorial result too large" := by
  have hne : ¬ (n = 0 ∨ n = 1) := by omega
  have hsplit : (n - 1).toNat = (n - 167).toNat + 166 := by omega
  unfold FactorialOperation.execute FactorialOperation.rangeFromTwo
  rw [if_neg hne, hsplit, ← List.range'_append 2 166 ((n - 167).toNat) 1, List.map_append,
    fact_loop_append]
  have hpre : FactorialOperation.fact_loop ((List.range' 2 166).map (fun (k : Nat) => (k : Int))) 1 =
      .error "Factorial result too large" := by decide
  rw [hpre]
  rfl

/-! ### Lemmas: fibonacci -/

theorem lookup_cons_self (i v : Int) (memo : List (Int × Int)) :
    ((i, v) :: memo).lookup i = some v := by
  simp [List.lookup]

theorem lookup_cons_ne {k i : Int} (v : Int) (memo : List (Int × Int)) (h : k ≠ i) :
    ((i, v) :: memo).lookup k = memo.lookup k := by
  simp only [List.lookup]
  rw [beq_eq_false_iff_ne.mpr h]

theorem initMemo_lookup_ge_two (n : Int) (h : n < 0 ∨ 2 ≤ n) :
    FibonacciOperation.initMemo.lookup n = none := by
  unfold FibonacciOperation.initMemo
  rw [lookup_cons_ne _ _ (by omega), lookup_cons_ne _ _ (by omega)]
  rfl

theorem fib_loop_spec (c : Nat) :
    ∀ (i : Nat) (a b : Int) (memo : List (Int × Int)),
      (∀ k : Nat, i ≤ k → memo.lookup (((k : Nat) : Int)) = none) →
      ∃ M, FibonacciOperation.fib_loop ((List.range' i (c + 1)).map (fun (k : Nat) => (k : Int))) (a, b) memo
            = (fibIter (c + 1) (a, b), M) ∧
          M.lookup (((i + c : Nat) : Int)) = some (fibIter (c + 1) (a, b)).2 ∧
          ∀ k : Nat, i + c + 1 ≤ k → M.lookup (((k : Nat) : Int)) = none := by
  induction c with
  | zero =>
    intro i a b memo hmemo
    refine ⟨(((i : Nat) : Int), a + b) :: memo, ?_, ?_, ?_⟩
    · show FibonacciOperation.fib_loop ((List.range' i 1).map (fun (k : Nat) => (k : Int))) (a, b) memo = _
      have hr : (List.range' i 1).map (fun (k : Nat) => (k : Int)) = [((i : Nat) : Int)] := by
        simp [List.range']
      rw [hr]
      show (match memo.lookup (((i : Nat) : Int)) with
        | none => FibonacciOperation.fib_loop [] (b, a + b) ((((i : Nat) : Int), a + b) :: memo)
        | some v => FibonacciOperation.fib_loop [] ((memo.lookup (((i : Nat) : Int) - 1)).getD 0, v) memo) = _
      rw [hmemo i (Nat.le_refl i)]
      rfl
    · rw [Nat.add_zero, lookup_cons_self]
      rfl
    · intro k hk
      rw [lookup_cons_ne _ _ (by omega)]
      exact hmemo k (by omega)
  | succ c ih =>
    intro i a b memo hmemo
    have hmemo1 : ∀ k : Nat, i + 1 ≤ k →
        ((((i : Nat) : Int), a + b) :: memo).lookup (((k : Nat) : Int)) = none := by
      intro k hk
      rw [lookup_cons_ne _ _ (by omega)]
      exact hmemo k (by omega)
    obtain ⟨M, hM, hMl, hMn⟩ := ih (i + 1) b (a + b) ((((i : Nat) : Int), a + b) :: memo) hmemo1
    refine ⟨M, ?_, ?_, ?_⟩
    · rw [List.range'_succ, List.map_cons]
      show (match memo.lookup (((i : Nat) : Int)) with
        | none => FibonacciOperation.fib_loop
            ((List.range' (i + 1) (c + 1)).map (fun (k : Nat) => (k : Int)))
            (b, a + b) ((((i : Nat) : Int), a + b) :: memo)
        | some v => FibonacciOperation.fib_loop
            ((List.range' (i + 1) (c + 1)).map (fun (k : Nat) => (k : Int)))
            ((memo.lookup (((i : Nat) : Int) - 1)).getD 0, v) memo) = _
      rw [hmemo i (Nat.le_refl i), hM]
      rfl
    · have harith : i + (c + 1) = i + 1 + c := by omega
      rw [harith, hMl]
      rfl
    · intro k hk
      exact hMn k (by omega)

theorem fibIter_fib (c : Nat) :
    ∀ k : Nat, fibIter c ((Nat.fib k : Int), (Nat.fib (k + 1) : Int)) =
      ((Nat.fib (k + c) : Int), (Nat.fib (k + c + 1) : Int)) := by
  induction c with
  | zero => intro k; simp [fibIter]
  | succ c ih =>
    intro k
    have hstep : ((Nat.fib k : Int) + (Nat.fib (k + 1) : Int)) = (Nat.fib (k + 2) : Int) := by
      rw [Nat.fib_add_two]; push_cast; ring
    show fibIter c ((Nat.fib (k + 1) : Int), (Nat.fib k : Int) + (Nat.fib (k + 1) : Int)) = _
    rw [hstep]
    have harith2 : k + 2 = k + 1 + 1 := by omega
    have harith1 : k + 1 + c = k + (c + 1) := by omega
    rw [harith2, ih (k + 1), harith1]

theorem fibonacci_memo_fib (n : Nat) :
    (FibonacciOperation.fibonacci_memo FibonacciOperation.initMemo ((n : Nat) : Int)).1 =
      (Nat.fib n : Int) := by
  match n with
  | 0 => decide
  | 1 => decide
  | (m + 2) =>
    have hlk := initMemo_lookup_ge_two (((m + 2 : Nat) : Int)) (by omega)
    have hlt : ¬ (((m + 2 : Nat) : Int) < 2) := by omega
    have hrange : (((m + 2 : Nat) : Int) - 1).toNat = m + 1 := by omega
    have hinit : ∀ k : Nat, 2 ≤ k → FibonacciOperation.initMemo.lookup (((k : Nat) : Int)) = none := by
      intro k hk
      exact initMemo_lookup_ge_two (((k : Nat) : Int)) (by omega)
    obtain ⟨M, hM, hMl, _⟩ := fib_loop_spec m 2 0 1 FibonacciOperation.initMemo hinit
    have hfib : fibIter (m + 1) ((0 : Int), (1 : Int)) =
        ((Nat.fib (m + 1) : Int), (Nat.fib (m + 2) : Int)) := by
      have := fibIter_fib (m + 1) 0
      simpa using this
    unfold FibonacciOperation.fibonacci_memo
    rw [hlk]
    simp only [if_neg hlt, FactorialOperation.rangeFromTwo, hrange]
    rw [hM]
    have h2m : 2 + m = m + 2 := by omega
    rw [h2m] at hMl
    show (List.lookup ((m + 2 : Nat) : Int) M).getD 0 = ((Nat.fib (m + 2) : Nat) : Int)
    rw [hMl]
    simp [hfib]

/-! ### Lemmas: cache store -/

theorem storePut_self (s : CacheState) (k : String) (e : CacheEntry) :
    storePut s k e k = some e := by
  simp [storePut]

theorem storePut_ne (s : CacheState) (k : String) (e : CacheEntry) {k' : String} (h : k' ≠ k) :
    storePut s k e k' = s k' := by
  simp [storePut, h]

theorem get_some_inv {now : Nat} {db : CacheState} {op : String} {ps : List (String × Int)}
    {w : Int} {db₁ : CacheState}
    (h : CacheManager.get false now db op ps = (some w, db₁)) :
    ∃ e t, db (generateCacheKey op ps) = some e ∧ e.expires_at = some t ∧ now < t ∧
      jsonLoadsInt e.result = some w ∧
      db₁ = storePut db (generateCacheKey op ps) { e with hit_count := e.hit_count + 1 } := by
  unfold CacheManager.get at h
  simp only [Bool.false_eq_true, if_false] at h
  split at h
  · simp at h
  · rename_i e he
    split at h
    · simp at h
    · rename_i t ht
      split at h
      · rename_i hn
        split at h
        · rename_i w' hd
          simp only [Prod.mk.injEq, Option.some.injEq] at h
          exact ⟨e, t, he, ht, hn, by rw [hd, h.1], h.2.symm⟩
        · simp at h
      · simp at h

theorem get_hit {now : Nat} {db : CacheState} {op : String} {ps : List (String × Int)}
    {e : CacheEntry} {t : Nat} {w : Int}
    (he : db (generateCacheKey op ps) = some e) (ht : e.expires_at = some t) (hn : now < t)
    (hd : jsonLoadsInt e.result = some w) :
    CacheManager.get false now db op ps =
      (some w, storePut db (generateCacheKey op ps) { e with hit_count := e.hit_count + 1 }) := by
  unfold CacheManager.get
  simp only [Bool.false_eq_true, if_false, he, ht, if_pos hn, hd]

theorem get_dead {now : Nat} {db : CacheState} {op : String} {ps : List (String × Int)}
    {e : CacheEntry}
    (he : db (generateCacheKey op ps) = some e)
    (hdead : e.expires_at = none ∨ ∃ t, e.expires_at = some t ∧ t ≤ now) :
    CacheManager.get false now db op ps = (none, db) := by
  unfold CacheManager.get
  simp only [Bool.false_eq_true, if_false, he]
  rcases hdead with hnone | ⟨t, ht, hle⟩
  · simp only [hnone]
  · have hn : ¬ now < t := by omega
    simp only [ht, if_neg hn]

theorem set_upsert (now : Nat) (db : CacheState) (op : String) (ps : List (String × Int))
    (v : Int) :
    ∃ e', CacheManager.set false now db op ps v none (generateCacheKey op ps) = some e' ∧
      e'.result = intToChars v ∧
      e'.expires_at = some (now + CacheManager.default_ttl_hours * 3600) := by
  unfold CacheManager.set
  simp only [Bool.false_eq_true, if_false]
  match he : db (generateCacheKey op ps) with
  | some e => exact ⟨_, storePut_self _ _ _, rfl, rfl⟩
  | none => exact ⟨_, storePut_self _ _ _, rfl, rfl⟩

theorem get_after_set (now : Nat) (db : CacheState) (op : String) (ps : List (String × Int))
    (v : Int) :
    ∃ db₂, CacheManager.get false now (CacheManager.set false now db op ps v none) op ps =
      (some v, db₂) := by
  obtain ⟨e', he', hr, ht⟩ := set_upsert now db op ps v
  refine ⟨_, get_hit he' ht ?_ ?_⟩
  · show now < now + 24 * 3600
    omega
  · rw [hr]
    exact jsonLoadsInt_intToChars v

theorem get_hit_again {now : Nat} {db : CacheState} {op : String} {ps : List (String × Int)}
    {w : Int} {db₁ : CacheState}
    (h : CacheManager.get false now db op ps = (some w, db₁)) :
    ∃ db₂, CacheManager.get false now db₁ op ps = (some w, db₂) := by
  obtain ⟨e, t, he, ht, hn, hd, hdb⟩ := get_some_inv h
  refine ⟨_, get_hit (e := { e with hit_count := e.hit_count + 1 }) ?_ ?_ hn ?_⟩
  · rw [hdb]
    exact storePut_self _ _ _
  · exact ht
  · exact hd

theorem get_state (fail : Bool) (now : Nat) (db : CacheState) (op : String)
    (ps : List (String × Int)) :
    (CacheManager.get fail now db op ps).2 = db ∨
    ∃ e₀, db (generateCacheKey op ps) = some e₀ ∧
      (CacheManager.get fail now db op ps).2 =
        storePut db (generateCacheKey op ps) { e₀ with hit_count := e₀.hit_count + 1 } := by
  unfold CacheManager.get
  cases fail with
  | true => left; rfl
  | false =>
    simp only [Bool.false_eq_true, if_false]
    split
    · left; rfl
    · rename_i e₀ he
      split
      · left; rfl
      · split
        · split
          · right; exact ⟨e₀, he, rfl⟩
          · right; exact ⟨e₀, he, rfl⟩
        · left; rfl

theorem applyCacheOp_mono (st : CacheOp) (db : CacheState) (k : String) (e : CacheEntry)
    (h : db k = some e) :
    ∃ e', applyCacheOp db st k = some e' ∧ e.hit_count ≤ e'.hit_count := by
  cases st with
  | get op ps now fail =>
    show ∃ e', (CacheManager.get fail now db op ps).2 k = some e' ∧ _
    rcases get_state fail now db op ps with hs | ⟨e₀, he₀, hs⟩
    · rw [hs]
      exact ⟨e, h, Nat.le_refl _⟩
    · rw [hs]
      by_cases hk : k = generateCacheKey op ps
      · subst hk
        rw [storePut_self]
        rw [h] at he₀
        cases he₀
        exact ⟨_, rfl, Nat.le_succ _⟩
      · rw [storePut_ne _ _ _ hk]
        exact ⟨e, h, Nat.le_refl _⟩
  | put op ps v ttl now fail =>
    show ∃ e', CacheManager.set fail now db op ps v ttl k = some e' ∧ _
    unfold CacheManager.set
    cases fail with
    | true => exact ⟨e, h, Nat.le_refl _⟩
    | false =>
      simp only [Bool.false_eq_true, if_false]
      cases he₀ : db (generateCacheKey op ps) with
      | some e₀ =>
        simp only [he₀]
        by_cases hk : k = generateCacheKey op ps
        · subst hk
          rw [storePut_self]
          rw [h] at he₀
          cases he₀
          exact ⟨_, rfl, Nat.le_refl _⟩
        · rw [storePut_ne _ _ _ hk]
          exact ⟨e, h, Nat.le_refl _⟩
      | none =>
        simp only [he₀]
        by_cases hk : k = generateCacheKey op ps
        · subst hk
          rw [h] at he₀
          cases he₀
        · rw [storePut_ne _ _ _ hk]
          exact ⟨e, h, Nat.le_refl _⟩

theorem applyCacheOps_mono (sts : List CacheOp) :
    ∀ (db : CacheState) (k : String) (e : CacheEntry), db k = some e →
      ∃ e', applyCacheOps sts db k = some e' ∧ e.hit_count ≤ e'.hit_count := by
  induction sts with
  | nil => intro db k e h; exact ⟨e, h, Nat.le_refl _⟩
  | cons st sts ih =>
    intro db k e h
    obtain ⟨e₁, h₁, hle₁⟩ := applyCacheOp_mono st db k e h
    obtain ⟨e₂, h₂, hle₂⟩ := ih (applyCacheOp db st) k e₁ h₁
    exact ⟨e₂, h₂, Nat.le_trans hle₁ hle₂⟩

/-! ### Lemmas: dispatcher -/

theorem execute_op_hit {ops : OperationTable} {f : List (String × Int) → Except String Int}
    {now dur : Nat} {db dbg : CacheState} {name : String} {ps : List (String × Int)} {w : Int}
    (hf : ops name = some f) (hg : CacheManager.get false now db name ps = (some w, dbg)) :
    MathService.execute_operation ops false false now dur db name ps true =
      (.ok (w, 0, true), dbg) := by
  unfold MathService.execute_operation
  simp only [hf, if_true, hg]

theorem execute_op_miss {ops : OperationTable} {f : List (String × Int) → Except String Int}
    {now dur : Nat} {db dbg : CacheState} {name : String} {ps : List (String × Int)} {v : Int}
    (hf : ops name = some f) (hg : CacheManager.get false now db name ps = (none, dbg))
    (hv : f ps = .ok v) :
    MathService.execute_operation ops false false now dur db name ps true =
      (.ok (v, dur, false), CacheManager.set false now dbg name ps v none) := by
  unfold MathService.execute_operation
  simp only [hf, if_true, hg, hv]

/-- C4: for every registered operation whose compute function succeeds on the
given parameters, an `execute_operation` followed by a second identical
`execute_operation` with caching on and a healthy store yields the same result
value bit for bit, and the second call reports a cache hit with elapsed time
zero. -/
theorem c4_execute_twice_cache_hit (ops : OperationTable)
    (f : List (String × Int) → Except String Int) (now dur₁ dur₂ : Nat) (db : CacheState)
    (name : String) (ps : List (String × Int)) (v : Int)
    (hf : ops name = some f) (hv : f ps = .ok v) :
    ∃ (v₁ : Int) (t₁ : Nat) (h₁ : Bool) (db₁ db₂ : CacheState),
      MathService.execute_operation ops false false now dur₁ db name ps true =
        (.ok (v₁, t₁, h₁), db₁) ∧
      MathService.execute_operation ops false false now dur₂ db₁ name ps true =
        (.ok (v₁, 0, true), db₂) := by
  rcases hg : CacheManager.get false now db name ps with ⟨o, dbg⟩
  cases o with
  | some w =>
    obtain ⟨db₂, hg₂⟩ := get_hit_again hg
    exact ⟨w, 0, true, dbg, db₂, execute_op_hit hf hg, execute_op_hit hf hg₂⟩
  | none =>
    obtain ⟨db₂, hg₂⟩ := get_after_set now dbg name ps v
    exact ⟨v, dur₁, false, _, db₂, execute_op_miss hf hg hv, execute_op_hit hf hg₂⟩

set_option maxRecDepth 10000 in
/-- C4 witness: the factorial of 4 through the dispatcher twice on an empty
cache. -/
theorem c4_execute_twice_cache_hit_witness :
    ∃ (v₁ : Int) (t₁ : Nat) (h₁ : Bool) (db₁ db₂ : CacheState),
      MathService.execute_operation sampleTable false false 0 5 emptyCache "factorial"
        [("n", 4)] true = (.ok (v₁, t₁, h₁), db₁) ∧
      MathService.execute_operation sampleTable false false 0 7 db₁ "factorial"
        [("n", 4)] true = (.ok (v₁, 0, true), db₂) :=
  c4_execute_twice_cache_hit sampleTable factorialImpl 0 5 7 emptyCache "factorial"
    [("n", 4)] 24 rfl rfl

/-- C2 amended: `get` returns a stored result exactly when a row for the key
exists whose `expires_at` is non-null and strictly in the future and whose
serialized result decodes; a row whose `expires_at` is null or in the past is
treated as a miss and the store is left unchanged, the row still present.  The
null case diverges from the claim: SQL three-valued logic drops a NULL
`expires_at` row from the filtered query, so null means `never visible`, not
`never expires`. -/
theorem c2_expiry_amended (now : Nat) (db : CacheState) (op : String)
    (ps : List (String × Int)) :
    (∀ v : Int, (CacheManager.get false now db op ps).1 = some v ↔
      ∃ e t, db (generateCacheKey op ps) = some e ∧ e.expires_at = some t ∧ now < t ∧
        jsonLoadsInt e.result = some v) ∧
    (∀ e, db (generateCacheKey op ps) = some e →
      (e.expires_at = none ∨ ∃ t, e.expires_at = some t ∧ t ≤ now) →
      CacheManager.get false now db op ps = (none, db)) := by
  constructor
  · intro v
    constructor
    · intro h1
      rcases hg : CacheManager.get false now db op ps with ⟨o, dbg⟩
      rw [hg] at h1
      simp only at h1
      subst h1
      obtain ⟨e, t, he, ht, hn, hd, _⟩ := get_some_inv hg
      exact ⟨e, t, he, ht, hn, hd⟩
    · rintro ⟨e, t, he, ht, hn, hd⟩
      rw [get_hit he ht hn hd]
  · intro e he hdead
    exact get_dead he hdead

/-- C2 witness: a row that expired at time 50 is a miss at time 100 and the
store is untouched, the row still present. -/
theorem c2_expiry_amended_witness :
    CacheManager.get false 100
      (storePut emptyCache (generateCacheKey "power" [("base", 2)])
        ⟨"power", jsonDumpsPlain [("base", 2)], generateCacheKey "power" [("base", 2)],
          intToChars 9, 0, some 50, 0⟩)
      "power" [("base", 2)] =
    (none, storePut emptyCache (generateCacheKey "power" [("base", 2)])
        ⟨"power", jsonDumpsPlain [("base", 2)], generateCacheKey "power" [("base", 2)],
          intToChars 9, 0, some 50, 0⟩) :=
  (c2_expiry_amended 100 _ "power" [("base", 2)]).2 _ (storePut_self _ _ _)
    (Or.inr ⟨50, rfl, by omega⟩)

set_option maxRecDepth 10000 in
/-- C2 counterexample: a row with `expires_at` null (never expires, per the
claim) and a decodable stored result is present for the key, yet `get`
returns nothing, because the SQL filter `expires_at > utcnow()` drops NULL
rows. -/
theorem c2_null_expiry_counterexample :
    (CacheManager.get false 100
        (storePut emptyCache (generateCacheKey "fibonacci" [("n", 10)])
          ⟨"fibonacci", jsonDumpsPlain [("n", 10)], generateCacheKey "fibonacci" [("n", 10)],
            intToChars 55, 0, none, 0⟩)
        "fibonacci" [("n", 10)]).1 = none ∧
    (storePut emptyCache (generateCacheKey "fibonacci" [("n", 10)])
        ⟨"fibonacci", jsonDumpsPlain [("n", 10)], generateCacheKey "fibonacci" [("n", 10)],
          intToChars 55, 0, none, 0⟩)
      (generateCacheKey "fibonacci" [("n", 10)]) =
      some ⟨"fibonacci", jsonDumpsPlain [("n", 10)], generateCacheKey "fibonacci" [("n", 10)],
        intToChars 55, 0, none, 0⟩ ∧
    jsonLoadsInt (intToChars 55) = some 55 := by
  refine ⟨?_, storePut_self _ _ _, by decide⟩
  have h := @get_dead 100 _ "fibonacci" [("n", 10)] _
    (storePut_self emptyCache (generateCacheKey "fibonacci" [("n", 10)])
      ⟨"fibonacci", jsonDumpsPlain [("n", 10)], generateCacheKey "fibonacci" [("n", 10)],
        intToChars 55, 0, none, 0⟩)
    (Or.inl rfl)
  rw [h]

/-- C6: dispatching an operation name absent from the registry fails with the
`Unsupported operation` error before any cache read, compute, or cache write;
the store is returned exactly as it was. -/
theorem c6_unknown_operation (ops : OperationTable) (gf sf : Bool) (now dur : Nat)
    (db : CacheState) (name : String) (ps : List (String × Int)) (uc : Bool)
    (h : ops name = none) :
    MathService.execute_operation ops gf sf now dur db name ps uc =
      (.error ("Unsupported operation: " ++ name), db) := by
  unfold MathService.execute_operation
  rw [h]

/-- C6 witness: the name `square` is not registered in the sample table. -/
theorem c6_unknown_operation_witness :
    MathService.execute_operation sampleTable false false 0 7 emptyCache "square"
      [("n", 3)] true = (.error ("Unsupported operation: " ++ "square"), emptyCache) :=
  c6_unknown_operation sampleTable false false 0 7 emptyCache "square" [("n", 3)] true rfl

/-- C7: a store failure during the cache read is treated as a miss — the
dispatch falls through to compute and still succeeds (the write stays
best-effort for either store health); a store failure during the cache write
is swallowed and, on a clean miss, the computed result is still returned with
the store rolled back unchanged. -/
theorem c7_cache_failure_resilient (ops : OperationTable)
    (f : List (String × Int) → Except String Int) (now dur : Nat) (db : CacheState)
    (name : String) (ps : List (String × Int)) (v : Int)
    (hf : ops name = some f) (hv : f ps = .ok v) :
    (∀ sf : Bool, MathService.execute_operation ops true sf now dur db name ps true =
      (.ok (v, dur, false), CacheManager.set sf now db name ps v none)) ∧
    (db (generateCacheKey name ps) = none →
      MathService.execute_operation ops false true now dur db name ps true =
        (.ok (v, dur, false), db)) := by
  constructor
  · intro sf
    unfold MathService.execute_operation
    have hg : CacheManager.get true now db name ps = (none, db) := rfl
    simp only [hf, if_true, hg, hv]
  · intro hmiss
    unfold MathService.execute_operation
    have hg : CacheManager.get false now db name ps = (none, db) := by
      unfold CacheManager.get
      simp only [Bool.false_eq_true, if_false, hmiss]
    have hs : CacheManager.set true now db name ps v none = db := rfl
    simp only [hf, if_true, hg, hv, hs]

set_option maxRecDepth 10000 in
/-- C7 witness: the factorial of 3 computed through the dispatcher despite a
failing store read, and despite a failing store write on an empty cache. -/
theorem c7_cache_failure_resilient_witness :
    MathService.execute_operation sampleTable true true 0 9 emptyCache "factorial"
      [("n", 3)] true =
      (.ok (6, 9, false), CacheManager.set true 0 emptyCache "factorial" [("n", 3)] 6 none) ∧
    MathService.execute_operation sampleTable false true 0 9 emptyCache "factorial"
      [("n", 3)] true = (.ok (6, 9, false), emptyCache) :=
  ⟨(c7_cache_failure_resilient sampleTable factorialImpl 0 9 emptyCache "factorial"
      [("n", 3)] 6 rfl rfl).1 true,
   (c7_cache_failure_resilient sampleTable factorialImpl 0 9 emptyCache "factorial"
      [("n", 3)] 6 rfl rfl).2 rfl⟩

/-- C9: a row is created by `set` with `hit_count = 0`; a live `get` hit
increments the row's `hit_count` by one; `set` on an existing key overwrites
`result`, `expires_at` and `parameters` but preserves `hit_count`; and across
any sequence of cache-store operations an existing row is never deleted and
its `hit_count` never decreases. -/
theorem c9_hit_count_monotone :
    (∀ (now : Nat) (db : CacheState) (op : String) (ps : List (String × Int)) (v : Int)
        (ttl : Option Nat), db (generateCacheKey op ps) = none →
      ∃ e', CacheManager.set false now db op ps v ttl (generateCacheKey op ps) = some e' ∧
        e'.hit_count = 0) ∧
    (∀ (now : Nat) (db : CacheState) (op : String) (ps : List (String × Int)) (e : CacheEntry)
        (t : Nat), db (generateCacheKey op ps) = some e → e.expires_at = some t → now < t →
      ∃ e', (CacheManager.get false now db op ps).2 (generateCacheKey op ps) = some e' ∧
        e'.hit_count = e.hit_count + 1) ∧
    (∀ (now : Nat) (db : CacheState) (op : String) (ps : List (String × Int)) (v : Int)
        (ttl : Option Nat) (e : CacheEntry), db (generateCacheKey op ps) = some e →
      ∃ e', CacheManager.set false now db op ps v ttl (generateCacheKey op ps) = some e' ∧
        e'.hit_count = e.hit_count ∧ e'.result = intToChars v ∧
        e'.parameters = jsonDumpsPlain ps ∧ ∃ texp, e'.expires_at = some texp) ∧
    (∀ (sts : List CacheOp) (db : CacheState) (k : String) (e : CacheEntry), db k = some e →
      ∃ e', applyCacheOps sts db k = some e' ∧ e.hit_count ≤ e'.hit_count) := by
  refine ⟨?_, ?_, ?_, applyCacheOps_mono⟩
  · intro now db op ps v ttl hmiss
    unfold CacheManager.set
    simp only [Bool.false_eq_true, if_false, hmiss]
    exact ⟨_, storePut_self _ _ _, rfl⟩
  · intro now db op ps e t he ht hn
    unfold CacheManager.get
    simp only [Bool.false_eq_true, if_false, he, ht, if_pos hn]
    cases hd : jsonLoadsInt e.result with
    | some w => simp only [hd]; exact ⟨_, storePut_self _ _ _, rfl⟩
    | none => simp only [hd]; exact ⟨_, storePut_self _ _ _, rfl⟩
  · intro now db op ps v ttl e he
    unfold CacheManager.set
    simp only [Bool.false_eq_true, if_false, he]
    exact ⟨_, storePut_self _ _ _, rfl, rfl, rfl, _, rfl⟩

set_option maxRecDepth 10000 in
/-- C9 witness: creation at hit count zero on an empty store; an increment on
a live hit; a hit-count-preserving overwrite; and monotonicity across a
concrete get-then-put sequence. -/
theorem c9_hit_count_monotone_witness :
    (∃ e', CacheManager.set false 0 emptyCache "power" [("base", 2)] 9 none
        (generateCacheKey "power" [("base", 2)]) = some e' ∧ e'.hit_count = 0) ∧
    (∃ e', (CacheManager.get false 5
        (storePut emptyCache (generateCacheKey "power" [("base", 2)])
          ⟨"power", jsonDumpsPlain [("base", 2)], generateCacheKey "power" [("base", 2)],
            intToChars 9, 0, some 10, 3⟩)
        "power" [("base", 2)]).2 (generateCacheKey "power" [("base", 2)]) = some e' ∧
      e'.hit_count = 4) ∧
    (∃ e', CacheManager.set false 0
        (storePut emptyCache (generateCacheKey "power" [("base", 2)])
          ⟨"power", jsonDumpsPlain [("base", 2)], generateCacheKey "power" [("base", 2)],
            intToChars 9, 0, some 10, 3⟩)
        "power" [("base", 2)] 16 none (generateCacheKey "power" [("base", 2)]) = some e' ∧
      e'.hit_count = 3 ∧ e'.result = intToChars 16 ∧
      e'.parameters = jsonDumpsPlain [("base", 2)] ∧ ∃ texp, e'.expires_at = some texp) ∧
    (∃ e', applyCacheOps
        [CacheOp.get "power" [("base", 2)] 5 false, CacheOp.put "power" [("base", 2)] 16 none 6 false]
        (storePut emptyCache (generateCacheKey "power" [("base", 2)])
          ⟨"power", jsonDumpsPlain [("base", 2)], generateCacheKey "power" [("base", 2)],
            intToChars 9, 0, some 10, 3⟩)
        (generateCacheKey "power" [("base", 2)]) = some e' ∧ 3 ≤ e'.hit_count) := by
  refine ⟨c9_hit_count_monotone.1 0 emptyCache "power" [("base", 2)] 9 none rfl, ?_, ?_, ?_⟩
  · exact c9_hit_count_monotone.2.1 5 _ "power" [("base", 2)] _ 10
      (storePut_self _ _ _) rfl (by omega)
  · exact c9_hit_count_monotone.2.2.1 0 _ "power" [("base", 2)] 16 none _ (storePut_self _ _ _)
  · exact c9_hit_count_monotone.2.2.2 _ _ _ _ (storePut_self _ _ _)

set_option maxRecDepth 4000 in
/-- C1 counterexample: with the configured magnitude ceiling of `10 ^ 300` the
factorial of 170 does not succeed — its running product passes the ceiling at
`i = 167` and the operation raises `Factorial result too large`. -/
theorem c1_factorial_170_counterexample :
    FactorialOperation.execute 170 = .error "Factorial result too large" := by decide

set_option maxRecDepth 4000 in
/-- C1 amended: `fact(0) = 1` and `fact(5) = 120`; the largest input that
succeeds under the `10 ^ 300` ceiling is 166, whose value stays below the
ceiling; and every input from 167 upward — including 170 and 171 — fails with
`Factorial result too large` because the running product exceeds the
ceiling. -/
theorem c1_factorial_ceiling_amended :
    FactorialOperation.execute 0 = .ok 1 ∧
    FactorialOperation.execute 5 = .ok 120 ∧
    FactorialOperation.execute 166 = .ok ((Nat.factorial 166 : Nat) : Int) ∧
    ((Nat.factorial 166 : Nat) : Int) ≤ 10 ^ 300 ∧
    (∀ n : Int, 167 ≤ n →
      FactorialOperation.execute n = .error "Factorial result too large") :=
  ⟨by decide, by decide, by decide, by decide, factorial_ge_167⟩

/-- C1 witness: the bound from the amended claim applied at 170 and 171. -/
theorem c1_factorial_ceiling_amended_witness :
    FactorialOperation.execute 170 = .error "Factorial result too large" ∧
    FactorialOperation.execute 171 = .error "Factorial result too large" :=
  ⟨c1_factorial_ceiling_amended.2.2.2.2 170 (by decide),
   c1_factorial_ceiling_amended.2.2.2.2 171 (by decide)⟩

/-- C10: for a negative input the factorial loop over `range(2, n + 1)` is
empty, so the operation returns 1 without raising, although such inputs lie
outside the documented domain. -/
theorem c10_factorial_negative (n : Int) (h : n < 0) :
    FactorialOperation.execute n = .ok 1 := by
  have hne : ¬ (n = 0 ∨ n = 1) := by omega
  have hr : (n - 1).toNat = 0 := by omega
  unfold FactorialOperation.execute FactorialOperation.rangeFromTwo
  rw [if_neg hne, hr]
  rfl

/-- C10 witness: the factorial operation at -5. -/
theorem c10_factorial_negative_witness : FactorialOperation.execute (-5) = .ok 1 :=
  c10_factorial_negative (-5) (by decide)

/-- C3 counterexample: invoking the fibonacci operation with `n = -1` returns
the value -1 instead of failing with an error. -/
theorem c3_fibonacci_negative_counterexample :
    fibonacciImpl [("n", -1)] = .ok (-1) := by decide

/-- C3 amended: for every negative input the fibonacci operation does not
defend at all — the memo misses, the `n < 2` branch returns `n` itself, and
the call succeeds with that value. -/
theorem c3_fibonacci_negative_amended (n : Int) (h : n < 0) :
    fibonacciImpl [("n", n)] = .ok n := by
  show Except.ok (FibonacciOperation.execute n) = Except.ok n
  unfold FibonacciOperation.execute FibonacciOperation.fibonacci_memo
  rw [initMemo_lookup_ge_two n (Or.inl h)]
  rw [if_pos (show n < 2 by omega)]

/-- C3 witness: the fibonacci operation at -7. -/
theorem c3_fibonacci_negative_amended_witness : fibonacciImpl [("n", -7)] = .ok (-7) :=
  c3_fibonacci_negative_amended (-7) (by decide)

/-- C8: the fibonacci values 0, 1, 55 and 12586269025 at inputs 0, 1, 10 and
50, and at input 1000 the bottom-up loop completes and agrees with the
textbook Fibonacci recurrence. -/
theorem c8_fibonacci_values :
    fibonacciImpl [("n", 0)] = .ok 0 ∧
    fibonacciImpl [("n", 1)] = .ok 1 ∧
    fibonacciImpl [("n", 10)] = .ok 55 ∧
    fibonacciImpl [("n", 50)] = .ok 12586269025 ∧
    fibonacciImpl [("n", 1000)] = .ok ((Nat.fib 1000 : Nat) : Int) := by
  refine ⟨by decide, by decide, by decide, ?_, ?_⟩
  · show Except.ok (FibonacciOperation.execute 50) = Except.ok (12586269025 : Int)
    unfold FibonacciOperation.execute
    rw [show (50 : Int) = ((50 : Nat) : Int) from rfl, fibonacci_memo_fib 50]
    have h : Nat.fib 50 = 12586269025 := by norm_num
    rw [h]
    norm_num
  · show Except.ok (FibonacciOperation.execute 1000) = _
    unfold FibonacciOperation.execute
    rw [show (1000 : Int) = ((1000 : Nat) : Int) from rfl, fibonacci_memo_fib 1000]

/-- C5 counterexample: the universal half of the claim — every change of a
parameter value changes the key — cannot hold: the key space is a fixed
256-bit digest while the parameter values are unbounded, so by pigeonhole two
distinct values of `n` must produce the same key. -/
theorem c5_collision_counterexample :
    ¬ (∀ p₁ p₂ : Int, p₁ ≠ p₂ →
        generateCacheKey "fibonacci" [("n", p₁)] ≠ generateCacheKey "fibonacci" [("n", p₂)]) := by
  intro h
  obtain ⟨x, y, hxy, heq⟩ := Finite.exists_ne_map_eq_of_infinite
    (fun n : Nat => (⟨sha256Val (strBytes (keyData "fibonacci" [("n", (n : Int))])),
      sha256Val_lt _⟩ : Fin (2 ^ 256)))
  have hval : sha256Val (strBytes (keyData "fibonacci" [("n", (x : Int))])) =
      sha256Val (strBytes (keyData "fibonacci" [("n", (y : Int))])) := by
    simpa using congrArg Fin.val heq
  exact h (x : Int) (y : Int) (by omega) (generateCacheKey_eq_of_val hval)

set_option maxRecDepth 10000 in
/-- C5 amended: the cache key is invariant under reordering of the parameter
dictionary (sorted-key serialization), and on the reference inputs — a change
of one parameter value, and a change of operation name — the keys differ;
universal key distinctness holds only up to SHA-256 collision resistance. -/
theorem c5_key_amended :
    (∀ (op : String) (ps₁ ps₂ : List (String × Int)), ps₁.Perm ps₂ →
        (ps₁.map Prod.fst).Nodup → generateCacheKey op ps₁ = generateCacheKey op ps₂) ∧
    generateCacheKey "power" [("base", 2), ("exponent", 3)] =
      generateCacheKey "power" [("exponent", 3), ("base", 2)] ∧
    generateCacheKey "power" [("base", 2), ("exponent", 3)] ≠
      generateCacheKey "power" [("base", 2), ("exponent", 4)] ∧
    generateCacheKey "power" [("base", 2), ("exponent", 3)] ≠
      generateCacheKey "factorial" [("base", 2), ("exponent", 3)] := by
  refine ⟨generateCacheKey_perm, ?_, by decide, by decide⟩
  exact generateCacheKey_perm "power" _ _ (List.Perm.swap ("exponent", 3) ("base", 2) [])
    (by decide)

/-- C5 witness: key invariance under reordering instantiated at the power
parameters 5 and 6. -/
theorem c5_key_amended_witness :
    generateCacheKey "power" [("base", 5), ("exponent", 6)] =
      generateCacheKey "power" [("exponent", 6), ("base", 5)] :=
  c5_key_amended.1 "power" _ _ (List.Perm.swap ("exponent", 6) ("base", 5) []) (by decide)

set_option maxRecDepth 10000 in
/-- Sanity check of the hash embedding: the FIPS 180-2 test vector for the
message `abc`. -/
theorem sha256Hex_abc_vector :
    String.mk (sha256Hex (strBytes "abc".data)) =
      "ba7816bf8f01cfea414140de5dae2223b00361a396177a9cb410ff61f20015ad" := by decide
